import Mathlib

/-!
Verification of the byte-view (`Slice`), bytewise comparator, and `Arena`
primitives of the leveldb-annotated repository, via a shallow embedding.

A `Slice` views a contiguous byte range; we model the viewed bytes as a
`List Nat` (each element one byte, compared as an unsigned value, exactly as
`memcmp` compares `unsigned char`s).  Address-related aspects (the `data_`
pointer) have no observable effect on the operations verified here except for
the `const char*` constructor, where the length is computed by `strlen`; that
constructor is modelled on the underlying memory contents.
-/

namespace LevelDBSpec

/-- The bytes viewed by a `leveldb::Slice` (`data_[0] .. data_[size_-1]`). -/
abbrev Slice := List Nat

/-- Model of C `memcmp(p, q, k)` on byte sequences: three-way sign of the
comparison of the first `k` bytes (callers always pass `k` no larger than
either length, so the out-of-range catch-all is never reached). -/
def memcmpList : List Nat → List Nat → Nat → Int
  | _, _, 0 => 0
  | x :: xs, y :: ys, k + 1 =>
      if x < y then -1 else if y < x then 1 else memcmpList xs ys k
  | _, _, _ + 1 => 0

/-- `Slice::compare` (src/include/leveldb/slice.h:121-131): `memcmp` over the
first `min(size_, b.size_)` bytes; when that returns 0, the shorter slice is
smaller, equal lengths meaning equal. -/
def Slice.compare (a b : Slice) : Int :=
  if memcmpList a b (min a.length b.length) = 0 then
    if a.length < b.length then -1
    else if b.length < a.length then 1
    else 0
  else memcmpList a b (min a.length b.length)

/-- `operator==(x, y)` (src/include/leveldb/slice.h:108-111): sizes equal and
`memcmp` over `x.size()` bytes returns 0. -/
def Slice.beq (x y : Slice) : Bool :=
  (x.length == y.length) && (memcmpList x y x.length == 0)

/-- `Slice::starts_with(x)` (src/include/leveldb/slice.h:93-95):
`size_ >= x.size_` and `memcmp(data_, x.data_, x.size_) == 0`. -/
def Slice.starts_with (v x : Slice) : Bool :=
  (x.length ≤ v.length : Bool) && (memcmpList v x x.length == 0)

/-- C `strlen`: number of bytes before the first NUL byte of the memory. -/
def strlen : List Nat → Nat
  | [] => 0
  | b :: bs => if b = 0 then 0 else strlen bs + 1

/-- The `Slice(const char* s)` constructor (src/include/leveldb/slice.h:46-48):
stores `data_ = s`, `size_ = strlen(s)`, so the viewed bytes are the first
`strlen mem` bytes of the underlying memory `mem`. -/
def Slice.fromCString (mem : List Nat) : Slice :=
  mem.take (strlen mem)

/-- Spec-side three-way byte-wise comparison of the overlapping common
portion of two byte sequences (the first `min` bytes), written directly from
the specification's words; used to state the refinement of `Slice.compare`. -/
def prefixCmp : List Nat → List Nat → Int
  | x :: xs, y :: ys => if x < y then -1 else if y < x then 1 else prefixCmp xs ys
  | _, _ => 0

/-! ### Basic lemmas about `Slice.compare` -/

theorem memcmpList_nil_left (b : List Nat) (k : Nat) : memcmpList [] b k = 0 := by
  cases b <;> cases k <;> simp [memcmpList]

theorem memcmpList_nil_right (a : List Nat) (k : Nat) : memcmpList a [] k = 0 := by
  cases a <;> cases k <;> simp [memcmpList]

theorem compare_nil_nil : Slice.compare [] [] = 0 := rfl

theorem compare_nil_cons (y : Nat) (ys : Slice) : Slice.compare [] (y :: ys) = -1 := by
  simp [Slice.compare, memcmpList]

theorem compare_cons_nil (x : Nat) (xs : Slice) : Slice.compare (x :: xs) [] = 1 := by
  simp [Slice.compare, memcmpList_nil_right]

theorem compare_cons_cons (x y : Nat) (xs ys : Slice) :
    Slice.compare (x :: xs) (y :: ys) =
      if x < y then -1 else if y < x then 1 else Slice.compare xs ys := by
  rcases Nat.lt_trichotomy x y with h | h | h
  · simp [Slice.compare, memcmpList, Nat.succ_min_succ, h, Nat.lt_asymm h]
  · subst h
    simp [Slice.compare, memcmpList, Nat.succ_min_succ, lt_irrefl]
  · simp [Slice.compare, memcmpList, Nat.succ_min_succ, h, Nat.lt_asymm h]

theorem compare_self (a : Slice) : Slice.compare a a = 0 := by
  induction a with
  | nil => rfl
  | cons x xs ih => rw [compare_cons_cons]; simp [ih]

theorem compare_eq_zero_iff (a b : Slice) : Slice.compare a b = 0 ↔ a = b := by
  induction a generalizing b with
  | nil =>
    cases b with
    | nil => simp [compare_nil_nil]
    | cons y ys => simp [compare_nil_cons]
  | cons x xs ih =>
    cases b with
    | nil => simp [compare_cons_nil]
    | cons y ys =>
      rw [compare_cons_cons]
      rcases Nat.lt_trichotomy x y with h | h | h
      · simp [h, Nat.ne_of_lt h]
      · subst h
        simp [lt_irrefl, ih]
      · simp [h, Nat.lt_asymm h, (Nat.ne_of_lt h).symm]

theorem compare_antisymm (a b : Slice) : Slice.compare a b = -Slice.compare b a := by
  induction a generalizing b with
  | nil =>
    cases b with
    | nil => rfl
    | cons y ys => simp [compare_nil_cons, compare_cons_nil]
  | cons x xs ih =>
    cases b with
    | nil => simp [compare_nil_cons, compare_cons_nil]
    | cons y ys =>
      rw [compare_cons_cons, compare_cons_cons]
      rcases Nat.lt_trichotomy x y with h | h | h
      · simp [h, Nat.lt_asymm h]
      · subst h
        simp [lt_irrefl, ih]
      · simp [h, Nat.lt_asymm h]

theorem compare_trans_neg (a b c : Slice) (hab : Slice.compare a b < 0)
    (hbc : Slice.compare b c < 0) : Slice.compare a c < 0 := by
  induction a generalizing b c with
  | nil =>
    cases c with
    | nil =>
      exfalso
      cases b with
      | nil => rw [compare_nil_nil] at hab; exact absurd hab (by decide)
      | cons y ys => rw [compare_cons_nil] at hbc; exact absurd hbc (by decide)
    | cons z zs => rw [compare_nil_cons]; decide
  | cons x xs ih =>
    cases b with
    | nil => rw [compare_cons_nil] at hab; exact absurd hab (by decide)
    | cons y ys =>
      cases c with
      | nil => rw [compare_cons_nil] at hbc; exact absurd hbc (by decide)
      | cons z zs =>
        rw [compare_cons_cons] at hab hbc ⊢
        by_cases hxy : x < y
        · by_cases hyz : y < z
          · simp [Nat.lt_trans hxy hyz]
          · have hzy : ¬ z < y := by
              intro hzy
              rw [if_neg hyz, if_pos hzy] at hbc
              exact absurd hbc (by decide)
            have hyez : y = z := Nat.le_antisymm (Nat.le_of_not_lt hzy) (Nat.le_of_not_lt hyz)
            subst hyez
            simp [hxy]
        · have hyx : ¬ y < x := by
            intro hyx
            rw [if_neg hxy, if_pos hyx] at hab
            exact absurd hab (by decide)
          have hxey : x = y := Nat.le_antisymm (Nat.le_of_not_lt hyx) (Nat.le_of_not_lt hxy)
          subst hxey
          rw [if_neg hxy, if_neg hyx] at hab
          by_cases hyz : x < z
          · simp [hyz]
          · have hzy : ¬ z < x := by
              intro hzy
              rw [if_neg hyz, if_pos hzy] at hbc
              exact absurd hbc (by decide)
            have hxez : x = z := Nat.le_antisymm (Nat.le_of_not_lt hzy) (Nat.le_of_not_lt hyz)
            subst hxez
            rw [if_neg hyz, if_neg hzy] at hbc
            simp [lt_irrefl]
            exact ih ys zs hab hbc

theorem compare_append_left (p a b : Slice) :
    Slice.compare (p ++ a) (p ++ b) = Slice.compare a b := by
  induction p with
  | nil => rfl
  | cons x xs ih => simp [compare_cons_cons, ih, lt_irrefl]

theorem memcmpList_eq_prefixCmp (a b : List Nat) :
    memcmpList a b (min a.length b.length) = prefixCmp a b := by
  induction a generalizing b with
  | nil => simp [memcmpList_nil_left, prefixCmp]
  | cons x xs ih =>
    cases b with
    | nil => simp [memcmpList_nil_right, prefixCmp]
    | cons y ys => simp [Nat.succ_min_succ, memcmpList, prefixCmp, ih]

theorem memcmpList_zero_iff_take (a b : List Nat) (k : Nat) (ha : k ≤ a.length)
    (hb : k ≤ b.length) : memcmpList a b k = 0 ↔ a.take k = b.take k := by
  induction k generalizing a b with
  | zero => simp [memcmpList]
  | succ n ih =>
    cases a with
    | nil => simp at ha
    | cons x xs =>
      cases b with
      | nil => simp at hb
      | cons y ys =>
        simp only [List.length_cons, Nat.succ_le_succ_iff] at ha hb
        rcases Nat.lt_trichotomy x y with h | h | h
        · simp [memcmpList, h, Nat.ne_of_lt h]
        · subst h
          simp [memcmpList, lt_irrefl, ih xs ys ha hb]
        · simp [memcmpList, h, Nat.lt_asymm h, (Nat.ne_of_lt h).symm]

theorem strlen_le_length (mem : List Nat) : strlen mem ≤ mem.length := by
  induction mem with
  | nil => simp [strlen]
  | cons b bs ih =>
    by_cases hb : b = 0
    · simp [strlen, hb]
    · simp [strlen, hb]
      omega

theorem take_strlen_eq_takeWhile (mem : List Nat) :
    mem.take (strlen mem) = mem.takeWhile (fun b => b != 0) := by
  induction mem with
  | nil => rfl
  | cons b bs ih =>
    by_cases hb : b = 0
    · simp [strlen, hb, List.takeWhile_cons]
    · simp [strlen, hb, List.takeWhile_cons, ih]

/-! ### Claim theorems about `Slice` -/

/-- C1: `Slice::compare` returns the three-way result of byte-wise comparing
the first `min(len(a), len(b))` bytes; when that common prefix is equal the
result is negative (`-1`) when `len(a) < len(b)`, positive (`1`) when
`len(a) > len(b)`, and zero when the lengths are also equal. -/
theorem compare_prefix_then_length (a b : Slice) :
    Slice.compare a b =
      if prefixCmp a b = 0 then
        if a.length < b.length then -1
        else if b.length < a.length then 1
        else 0
      else prefixCmp a b := by
  rw [Slice.compare, memcmpList_eq_prefixCmp]

/-- C2: `a.compare b = 0` exactly when `a` and `b` have identical length and
identical byte content (`a = b` in the byte-list model), and this coincides
with `operator==`; both depend only on the viewed bytes. -/
theorem compare_zero_iff_beq (a b : Slice) :
    (Slice.compare a b = 0 ↔ Slice.beq a b = true) ∧
    (Slice.beq a b = true ↔ a = b) ∧
    (Slice.compare a b = 0 ↔ a = b) := by
  have hbeq : Slice.beq a b = true ↔ a = b := by
    rw [Slice.beq]
    simp only [Bool.and_eq_true, beq_iff_eq]
    constructor
    · rintro ⟨hlen, hcmp⟩
      have := (memcmpList_zero_iff_take a b a.length (le_refl _) (le_of_eq hlen)).mp hcmp
      rwa [List.take_length, hlen, List.take_length] at this
    · rintro rfl
      exact ⟨rfl, (memcmpList_zero_iff_take a a a.length (le_refl _) (le_refl _)).mpr rfl⟩
  exact ⟨by rw [compare_eq_zero_iff, hbeq], hbeq, compare_eq_zero_iff a b⟩

theorem compare_nil_le (t : Slice) : Slice.compare [] t ≤ 0 := by
  cases t with
  | nil => rw [compare_nil_nil]
  | cons u us => rw [compare_nil_cons]; decide

theorem compare_self_append_neg (a t : Slice) (ht : t ≠ []) :
    Slice.compare a (a ++ t) < 0 := by
  induction a with
  | nil =>
    cases t with
    | nil => exact absurd rfl ht
    | cons u us => rw [List.nil_append, compare_nil_cons]; decide
  | cons x xs ih =>
    rw [List.cons_append, compare_cons_cons]
    simpa [lt_irrefl] using ih

/-- C3: the built-in byte-wise comparison satisfies antisymmetry in the exact
numeric form `compare(a,b) = -compare(b,a)`, reflexivity `compare(a,a) = 0`,
and transitivity of the strict order `compare < 0`. -/
theorem compare_total_order (a b c : Slice) :
    Slice.compare a b = -Slice.compare b a ∧
    Slice.compare a a = 0 ∧
    (Slice.compare a b < 0 → Slice.compare b c < 0 → Slice.compare a c < 0) :=
  ⟨compare_antisymm a b, compare_self a, compare_trans_neg a b c⟩

/-- Witness for C3 at `a = [0]`, `b = [1]`, `c = [2]`. -/
theorem compare_total_order_witness :
    Slice.compare [0] [1] = -Slice.compare [1] [0] ∧
    Slice.compare [0] [0] = 0 ∧
    Slice.compare [0] [2] < 0 :=
  ⟨(compare_total_order [0] [1] [2]).1, (compare_total_order [0] [0] [0]).2.1,
   (compare_total_order [0] [1] [2]).2.2 (by decide) (by decide)⟩

/-- C8: if the bytes of `a` are a proper byte-wise prefix of the bytes of `b`
(`b.take a.length = a` and `a ≠ b`), then `a.compare b < 0`. -/
theorem compare_proper_prefix_neg (a b : Slice) (hpre : b.take a.length = a)
    (hne : a ≠ b) : Slice.compare a b < 0 := by
  have hab : b = a ++ b.drop a.length := by
    conv_lhs => rw [← List.take_append_drop a.length b, hpre]
  have hd : b.drop a.length ≠ [] := by
    intro h
    rw [h, List.append_nil] at hab
    exact hne hab.symm
  rw [hab]
  exact compare_self_append_neg a _ hd

/-- Witness for C8 at `a = [1]`, `b = [1, 2]`. -/
theorem compare_proper_prefix_neg_witness : Slice.compare [1] [1, 2] < 0 :=
  compare_proper_prefix_neg [1] [1, 2] (by decide) (by decide)

/-- C9: `v.starts_with x` is true exactly when `len(x) ≤ len(v)` and the first
`len(x)` bytes of `v` equal `x`; in particular it is true for empty `x` and
false whenever `x` is longer than `v`. -/
theorem starts_with_iff (v x : Slice) :
    (Slice.starts_with v x = true ↔ x.length ≤ v.length ∧ v.take x.length = x) ∧
    Slice.starts_with v [] = true ∧
    (v.length < x.length → Slice.starts_with v x = false) := by
  have hmain : ∀ w y : Slice,
      Slice.starts_with w y = true ↔ y.length ≤ w.length ∧ w.take y.length = y := by
    intro w y
    rw [Slice.starts_with]
    simp only [Bool.and_eq_true, decide_eq_true_eq, beq_iff_eq]
    constructor
    · rintro ⟨hle, hcmp⟩
      refine ⟨hle, ?_⟩
      have := (memcmpList_zero_iff_take w y y.length hle (le_refl _)).mp hcmp
      rwa [List.take_length] at this
    · rintro ⟨hle, htake⟩
      refine ⟨hle, ?_⟩
      exact (memcmpList_zero_iff_take w y y.length hle (le_refl _)).mpr
        (by rw [List.take_length, htake])
  refine ⟨hmain v x, ?_, ?_⟩
  · rw [hmain v []]
    simp
  · intro hlt
    cases hb : Slice.starts_with v x with
    | false => rfl
    | true => exact absurd ((hmain v x).mp hb).1 (Nat.not_le_of_lt hlt)

/-- Witness for C9: `[1]` is a prefix of `[1, 2]`, and `[1, 2]` is not a
prefix of the shorter `[1]`. -/
theorem starts_with_iff_witness :
    Slice.starts_with [1, 2] [1] = true ∧ Slice.starts_with [1] [1, 2] = false :=
  ⟨(starts_with_iff [1, 2] [1]).1.mpr (by decide),
   (starts_with_iff [1] [1, 2]).2.2 (by decide)⟩

/-- C10: the `Slice(const char* s)` constructor produces a view of length
`strlen(s)`, i.e. exactly the bytes of the memory before its first NUL byte —
data containing an embedded NUL is silently truncated at that NUL. -/
theorem fromCString_strlen (mem : List Nat) :
    (Slice.fromCString mem).length = strlen mem ∧
    Slice.fromCString mem = mem.takeWhile (fun b => b != 0) := by
  constructor
  · rw [Slice.fromCString, List.length_take]
    exact Nat.min_eq_left (strlen_le_length mem)
  · rw [Slice.fromCString, take_strlen_eq_takeWhile]

/-! ### The built-in bytewise comparator's shortening operations -/

/-- Length of the common byte prefix of two byte sequences. -/
def commonPrefixLen : List Nat → List Nat → Nat
  | x :: xs, y :: ys => if x = y then commonPrefixLen xs ys + 1 else 0
  | _, _ => 0

/-- Modelled from the spec: `FindShortestSeparator` of the built-in bytewise
comparator.  Only the abstract declaration appears in the source excerpt
(src/include/leveldb/comparator.h:64-65); the bytewise implementation file is
missing.  Following the spec §4.2: compute the common-prefix length of `start`
and `limit`; if it is less than both lengths and the byte of `start` just past
the common prefix is below `0xff` and strictly below the corresponding byte of
`limit`, truncate `start` to `common_prefix_length + 1` bytes and increment
its last byte by one; otherwise leave `start` unchanged. -/
def FindShortestSeparator (start limit : Slice) : Slice :=
  if commonPrefixLen start limit < start.length ∧
      commonPrefixLen start limit < limit.length ∧
      start.getD (commonPrefixLen start limit) 0 < 255 ∧
      start.getD (commonPrefixLen start limit) 0
        < limit.getD (commonPrefixLen start limit) 0 then
    start.take (commonPrefixLen start limit)
      ++ [start.getD (commonPrefixLen start limit) 0 + 1]
  else start

/-- Modelled from the spec: `FindShortSuccessor` of the built-in bytewise
comparator (declared at src/include/leveldb/comparator.h:67-74; the bytewise
implementation file is missing).  Following the spec §4.2: scan the key's
bytes left to right; at the first byte strictly below `0xff`, truncate the key
to that position + 1 and increment that byte; if the key is empty or every
byte is `0xff`, leave it unchanged. -/
def FindShortSuccessor : Slice → Slice
  | [] => []
  | b :: rest => if b < 255 then [b + 1] else b :: FindShortSuccessor rest

theorem commonPrefixLen_le_left (a b : List Nat) : commonPrefixLen a b ≤ a.length := by
  induction a generalizing b with
  | nil => cases b <;> simp [commonPrefixLen]
  | cons x xs ih =>
    cases b with
    | nil => simp [commonPrefixLen]
    | cons y ys =>
      by_cases h : x = y
      · simp only [commonPrefixLen, if_pos h, List.length_cons]
        exact Nat.succ_le_succ (ih ys)
      · simp [commonPrefixLen, h]

theorem take_commonPrefixLen_eq (a b : List Nat) :
    a.take (commonPrefixLen a b) = b.take (commonPrefixLen a b) := by
  induction a generalizing b with
  | nil => cases b <;> simp [commonPrefixLen]
  | cons x xs ih =>
    cases b with
    | nil => simp [commonPrefixLen]
    | cons y ys =>
      by_cases h : x = y
      · subst h
        simp [commonPrefixLen, List.take_succ_cons, ih ys]
      · simp [commonPrefixLen, h]

theorem take_getD_drop (l : List Nat) (n : Nat) (h : n < l.length) :
    l = l.take n ++ l.getD n 0 :: l.drop (n + 1) := by
  induction l generalizing n with
  | nil => simp at h
  | cons x xs ih =>
    cases n with
    | zero => simp
    | succ m =>
      simp only [List.length_cons, Nat.succ_lt_succ_iff] at h
      simp only [List.take_succ_cons, List.getD_cons_succ, List.drop_succ_cons,
        List.cons_append, List.cons.injEq, true_and]
      exact ih m h

theorem compare_take_append_lt (p : Slice) (b : Nat) (rest : Slice) :
    Slice.compare (p ++ b :: rest) (p ++ [b + 1]) < 0 := by
  rw [compare_append_left, compare_cons_cons]
  simp [Nat.lt_succ_self]

theorem compare_inc_le (p : Slice) (b c : Nat) (rest : Slice) (hbc : b < c) :
    Slice.compare (p ++ [b + 1]) (p ++ c :: rest) ≤ 0 := by
  rw [compare_append_left, compare_cons_cons]
  by_cases h : b + 1 < c
  · simp [h]
  · have hbc1 : b + 1 = c := Nat.le_antisymm hbc (Nat.le_of_not_lt h)
    subst hbc1
    simpa [lt_irrefl] using compare_nil_le rest

/-- C4 (amended): for `start < limit` under the bytewise order,
`FindShortestSeparator` returns `s` with original `start ≤ s` and `s ≤ limit`
(the claim's strict bound `s < limit` fails, see the counterexample), and the
concrete example of the claim holds: `"helloworld"`/`"hellozebra"` is
shortened to `"hellox"`. -/
theorem findShortestSeparator_bounds (start limit : Slice)
    (hlt : Slice.compare start limit < 0) :
    Slice.compare start (FindShortestSeparator start limit) ≤ 0 ∧
    Slice.compare (FindShortestSeparator start limit) limit ≤ 0 ∧
    FindShortestSeparator [104, 101, 108, 108, 111, 119, 111, 114, 108, 100]
        [104, 101, 108, 108, 111, 122, 101, 98, 114, 97]
      = [104, 101, 108, 108, 111, 120] := by
  by_cases hc : commonPrefixLen start limit < start.length ∧
      commonPrefixLen start limit < limit.length ∧
      start.getD (commonPrefixLen start limit) 0 < 255 ∧
      start.getD (commonPrefixLen start limit) 0
        < limit.getD (commonPrefixLen start limit) 0
  · obtain ⟨h1, h2, h3, h4⟩ := hc
    have hs : FindShortestSeparator start limit =
        start.take (commonPrefixLen start limit)
          ++ [start.getD (commonPrefixLen start limit) 0 + 1] := by
      rw [FindShortestSeparator, if_pos ⟨h1, h2, h3, h4⟩]
    refine ⟨?_, ?_, by decide⟩
    · rw [hs]
      have hstart := take_getD_drop start (commonPrefixLen start limit) h1
      have heq := congrArg
        (fun t => Slice.compare t (start.take (commonPrefixLen start limit)
          ++ [start.getD (commonPrefixLen start limit) 0 + 1])) hstart
      simp only at heq
      rw [heq]
      exact le_of_lt (compare_take_append_lt _ _ _)
    · rw [hs]
      have hlimit := take_getD_drop limit (commonPrefixLen start limit) h2
      have heq := congrArg
        (fun t => Slice.compare (start.take (commonPrefixLen start limit)
          ++ [start.getD (commonPrefixLen start limit) 0 + 1]) t) hlimit
      simp only at heq
      rw [heq, take_commonPrefixLen_eq start limit]
      exact compare_inc_le _ _ _ _ h4
  · have hs : FindShortestSeparator start limit = start := by
      rw [FindShortestSeparator, if_neg hc]
    rw [hs]
    exact ⟨le_of_eq (compare_self start), le_of_lt hlt, by decide⟩

/-- Witness for C4 at `start = [0]`, `limit = [2]` (so `start < limit`). -/
theorem findShortestSeparator_bounds_witness :
    Slice.compare [0] (FindShortestSeparator [0] [2]) ≤ 0 ∧
    Slice.compare (FindShortestSeparator [0] [2]) [2] ≤ 0 :=
  ⟨(findShortestSeparator_bounds [0] [2] (by decide)).1,
   (findShortestSeparator_bounds [0] [2] (by decide)).2.1⟩

/-- C4 counterexample: with `start = [0]` and `limit = [1]` (so
`start < limit`), the truncate-and-increment step described by the claim fires
(common prefix empty, `0 < 0xff`, `0` strictly below `1`) and produces `[1]`,
which equals `limit`; the claimed strict bound `s < limit` therefore fails. -/
theorem findShortestSeparator_strict_cex :
    Slice.compare [0] [1] < 0 ∧
    FindShortestSeparator [0] [1] = [1] ∧
    ¬ Slice.compare (FindShortestSeparator [0] [1]) [1] < 0 := by decide

theorem findShortSuccessor_ge (key : Slice) :
    Slice.compare key (FindShortSuccessor key) ≤ 0 := by
  induction key with
  | nil => exact le_of_eq compare_nil_nil
  | cons b rest ih =>
    by_cases hb : b < 255
    · rw [show FindShortSuccessor (b :: rest) = [b + 1] from by
        simp [FindShortSuccessor, hb]]
      rw [compare_cons_cons]
      simp [Nat.lt_succ_self]
    · rw [show FindShortSuccessor (b :: rest) = b :: FindShortSuccessor rest from by
        simp [FindShortSuccessor, hb]]
      rw [compare_cons_cons]
      simpa [lt_irrefl] using ih

theorem findShortSuccessor_eq_takeWhile (key : Slice) :
    FindShortSuccessor key =
      (if (key.takeWhile (fun b => decide (255 ≤ b))).length = key.length then key
       else key.takeWhile (fun b => decide (255 ≤ b)) ++
         [key.getD (key.takeWhile (fun b => decide (255 ≤ b))).length 0 + 1]) := by
  induction key with
  | nil => simp [FindShortSuccessor]
  | cons b rest ih =>
    by_cases hb : b < 255
    · have hd : decide (255 ≤ b) = false := by
        simp only [decide_eq_false_iff_not]
        omega
      simp [FindShortSuccessor, hb, hd]
    · have hge : 255 ≤ b := Nat.le_of_not_lt hb
      have hd : decide (255 ≤ b) = true := by simp [hge]
      by_cases hlen : (rest.takeWhile (fun x => decide (255 ≤ x))).length = rest.length
      · simp [FindShortSuccessor, hb, hd, hlen, ih]
      · simp [FindShortSuccessor, hb, hd, hlen, ih, List.getD_cons_succ]

/-- C5: for every key, `FindShortSuccessor` returns `s ≥ key` under the
bytewise order; it truncates at the first byte strictly below `0xff` and
increments it (characterized here by the run of leading `0xff` bytes), so
`"hello"` becomes `"i"`, while an all-`0xff` key and the empty key are left
unchanged. -/
theorem findShortSuccessor_spec (key : Slice) :
    Slice.compare key (FindShortSuccessor key) ≤ 0 ∧
    FindShortSuccessor key =
      (if (key.takeWhile (fun b => decide (255 ≤ b))).length = key.length then key
       else key.takeWhile (fun b => decide (255 ≤ b)) ++
         [key.getD (key.takeWhile (fun b => decide (255 ≤ b))).length 0 + 1]) ∧
    FindShortSuccessor [104, 101, 108, 108, 111] = [105] ∧
    FindShortSuccessor [255, 255] = [255, 255] ∧
    FindShortSuccessor [] = [] :=
  ⟨findShortSuccessor_ge key, findShortSuccessor_eq_takeWhile key, by decide, by decide, rfl⟩

/-! ### Arena -/

/-- The standard Arena block size (4096 bytes, spec §4.3). -/
def kBlockSize : Nat := 4096

/-- State of a `leveldb::Arena` (src/util/arena.h:53-67): the bump pointer
`alloc_ptr_`, the free-byte count `alloc_bytes_remaining_` of the current
block, the tracked blocks (modelled as `(start address, size)` pairs), and the
`memory_usage_` counter.  `nextAddr` models the system allocator: the address
`new[]` hands out next. -/
structure Arena where
  allocPtr : Nat
  allocBytesRemaining : Nat
  blocks : List (Nat × Nat)
  memoryUsage : Nat
  nextAddr : Nat
deriving DecidableEq

/-- The `Arena()` constructor: no blocks, null bump pointer, zero remaining
bytes and zero usage. -/
def Arena.init : Arena :=
  { allocPtr := 0, allocBytesRemaining := 0, blocks := [], memoryUsage := 0, nextAddr := 0 }

/-- Modelled from the spec: `Arena::AllocateNewBlock` (declared at
src/util/arena.h:49; the implementation file is missing).  Allocates a fresh
block of `blockBytes` bytes, tracks it, and adds its size to the cumulative
usage counter (spec §4.3: `memoryUsage()` is the cumulative byte count of
every block ever allocated). -/
def Arena.AllocateNewBlock (a : Arena) (blockBytes : Nat) : Nat × Arena :=
  (a.nextAddr,
   { a with
     blocks := (a.nextAddr, blockBytes) :: a.blocks,
     memoryUsage := a.memoryUsage + blockBytes,
     nextAddr := a.nextAddr + blockBytes })

/-- Modelled from the spec: `Arena::AllocateFallback` (declared at
src/util/arena.h:43; the implementation file is missing).  Spec §4.3: a
request of at least one quarter of the standard block size gets a dedicated
block of exactly the requested size without touching the shared bump pointer;
otherwise a new standard-size block is started, the bump pointer and remaining
count are reset to it, and the request is served from its beginning. -/
def Arena.AllocateFallback (a : Arena) (bytes : Nat) : Nat × Arena :=
  if kBlockSize / 4 ≤ bytes then
    a.AllocateNewBlock bytes
  else
    ((a.AllocateNewBlock kBlockSize).1,
     { (a.AllocateNewBlock kBlockSize).2 with
       allocPtr := (a.AllocateNewBlock kBlockSize).1 + bytes,
       allocBytesRemaining := kBlockSize - bytes })

/-- `Arena::Allocate` (src/util/arena.h:70-82, inline in the source):
requires `bytes > 0`; if the current block has at least `bytes` free bytes,
return the bump pointer, advance it by `bytes` and shrink the remaining count
by `bytes`; otherwise defer to the fallback path. -/
def Arena.Allocate (a : Arena) (bytes : Nat) : Nat × Arena :=
  if bytes ≤ a.allocBytesRemaining then
    (a.allocPtr,
     { a with
       allocPtr := a.allocPtr + bytes,
       allocBytesRemaining := a.allocBytesRemaining - bytes })
  else a.AllocateFallback bytes

/-- Modelled from the spec: `Arena::AllocateAligned` (declared at
src/util/arena.h:34; the implementation file is missing).  Spec §4.3: with the
alignment granularity (8 bytes here, the larger of 8 and the pointer size),
compute the bump pointer's misalignment, pad by the complement when nonzero,
and perform the same O(1)/fallback allocation for `bytes + padding` bytes,
returning the address after the padding. -/
def Arena.AllocateAligned (a : Arena) (bytes : Nat) : Nat × Arena :=
  if bytes + (if a.allocPtr % 8 = 0 then 0 else 8 - a.allocPtr % 8)
      ≤ a.allocBytesRemaining then
    (a.allocPtr + (if a.allocPtr % 8 = 0 then 0 else 8 - a.allocPtr % 8),
     { a with
       allocPtr := a.allocPtr
         + (bytes + (if a.allocPtr % 8 = 0 then 0 else 8 - a.allocPtr % 8)),
       allocBytesRemaining := a.allocBytesRemaining
         - (bytes + (if a.allocPtr % 8 = 0 then 0 else 8 - a.allocPtr % 8)) })
  else
    a.AllocateFallback
      (bytes + (if a.allocPtr % 8 = 0 then 0 else 8 - a.allocPtr % 8))

/-- One allocation request issued to an Arena. -/
inductive ArenaCall where
  | alloc (n : Nat)
  | allocAligned (n : Nat)
deriving DecidableEq

/-- The byte count explicitly requested by a call. -/
def ArenaCall.requested : ArenaCall → Nat
  | .alloc n => n
  | .allocAligned n => n

/-- The sum of the byte counts explicitly requested by a list of calls. -/
def requestedSum : List ArenaCall → Nat
  | [] => 0
  | c :: cs => c.requested + requestedSum cs

/-- Execute one allocation call, keeping only the arena state. -/
def Arena.step (a : Arena) : ArenaCall → Arena
  | .alloc n => (a.Allocate n).2
  | .allocAligned n => (a.AllocateAligned n).2

/-- Execute a sequence of allocation calls. -/
def Arena.run (a : Arena) : List ArenaCall → Arena
  | [] => a
  | c :: cs => (a.step c).run cs

/-- C6: `Arena::Allocate(n)` (with its precondition `n > 0`): whenever the
current block has at least `n` free bytes — exact equality included — it
returns the current bump pointer, advances it by exactly `n`, shrinks the
remaining count by exactly `n`, and allocates no new block (blocks and usage
counter unchanged); only when `n` exceeds the remaining count does it take the
fallback block-growth path. -/
theorem arena_allocate_fast_path (a : Arena) (n : Nat) (hpos : 0 < n) :
    (n ≤ a.allocBytesRemaining →
      (a.Allocate n).1 = a.allocPtr ∧
      (a.Allocate n).2.allocPtr = a.allocPtr + n ∧
      (a.Allocate n).2.allocBytesRemaining = a.allocBytesRemaining - n ∧
      (a.Allocate n).2.blocks = a.blocks ∧
      (a.Allocate n).2.memoryUsage = a.memoryUsage) ∧
    (a.allocBytesRemaining < n → a.Allocate n = a.AllocateFallback n) := by
  constructor
  · intro h
    simp [Arena.Allocate, if_pos h]
  · intro h
    rw [Arena.Allocate, if_neg (Nat.not_le_of_lt h)]

/-- Witness for C6 on a state with 10 free bytes and a request of 4. -/
theorem arena_allocate_fast_path_witness :
    (Arena.Allocate ⟨0, 10, [], 0, 0⟩ 4).1 = 0 ∧
    (Arena.Allocate ⟨0, 10, [], 0, 0⟩ 4).2.allocPtr = 0 + 4 ∧
    (Arena.Allocate ⟨0, 10, [], 0, 0⟩ 4).2.allocBytesRemaining = 10 - 4 ∧
    (Arena.Allocate ⟨0, 10, [], 0, 0⟩ 4).2.blocks = [] ∧
    (Arena.Allocate ⟨0, 10, [], 0, 0⟩ 4).2.memoryUsage = 0 :=
  (arena_allocate_fast_path ⟨0, 10, [], 0, 0⟩ 4 (by decide)).1 (by decide)

theorem memoryUsage_step_mono (a : Arena) (c : ArenaCall) :
    a.memoryUsage ≤ (a.step c).memoryUsage := by
  cases c <;>
    · simp only [Arena.step, Arena.Allocate, Arena.AllocateAligned,
        Arena.AllocateFallback, Arena.AllocateNewBlock, kBlockSize]
      repeat' split
      all_goals dsimp only
      all_goals omega

theorem usage_invariant_step (a : Arena) (s : Nat) (c : ArenaCall)
    (h : s + a.allocBytesRemaining ≤ a.memoryUsage) :
    s + c.requested + (a.step c).allocBytesRemaining ≤ (a.step c).memoryUsage := by
  cases c <;>
    · simp only [Arena.step, ArenaCall.requested, Arena.Allocate, Arena.AllocateAligned,
        Arena.AllocateFallback, Arena.AllocateNewBlock, kBlockSize]
      repeat' split
      all_goals dsimp only
      all_goals omega


theorem usage_invariant_run (calls : List ArenaCall) : ∀ (a : Arena) (s : Nat),
    s + a.allocBytesRemaining ≤ a.memoryUsage →
    s + requestedSum calls + (a.run calls).allocBytesRemaining
      ≤ (a.run calls).memoryUsage := by
  induction calls with
  | nil =>
    intro a s h
    simpa [Arena.run, requestedSum] using h
  | cons c cs ih =>
    intro a s h
    have h2 := ih (a.step c) (s + c.requested) (usage_invariant_step a s c h)
    simp only [Arena.run, requestedSum]
    omega

theorem memoryUsage_run_mono (calls : List ArenaCall) : ∀ a : Arena,
    a.memoryUsage ≤ (a.run calls).memoryUsage := by
  induction calls with
  | nil =>
    intro a
    exact le_refl _
  | cons c cs ih =>
    intro a
    exact le_trans (memoryUsage_step_mono a c) (ih (a.step c))

theorem run_append (a : Arena) (xs ys : List ArenaCall) :
    a.run (xs ++ ys) = (a.run xs).run ys := by
  induction xs generalizing a with
  | nil => rfl
  | cons c cs ih =>
    simp only [List.cons_append, Arena.run]
    exact ih _

/-- C7: across any sequence of `Allocate` and `AllocateAligned` calls on one
Arena, `MemoryUsage()` is monotonically non-decreasing (extending the call
sequence never lowers it), and after every call its value is at least the sum
of the byte counts explicitly requested by all calls so far. -/
theorem arena_memoryUsage_monotone (calls extra : List ArenaCall) :
    requestedSum calls ≤ (Arena.init.run calls).memoryUsage ∧
    (Arena.init.run calls).memoryUsage
      ≤ (Arena.init.run (calls ++ extra)).memoryUsage := by
  constructor
  · have h := usage_invariant_run calls Arena.init 0 (by simp [Arena.init])
    omega
  · rw [run_append]
    exact memoryUsage_run_mono extra (Arena.init.run calls)
